import Mathlib

/-!
Verification of the mental-poker cryptographic core
(`mental_poker_crypto.py`) and the deck utilities (`deck_utils.py`).

The Python code is shallowly embedded: machine-free arbitrary-precision
integers become `Nat`, explicit `% p` reductions are kept where the code
performs them, the ambient random generator is threaded as explicit
arguments (the ephemeral exponent `k`, the Miller-Rabin base list, the
base-drawing oracle of the card codec), and Python runtime failures
(`TypeError`, `ValueError`) become `Except` errors.  Since `encrypt` may
receive either an `int` or a `tuple` at runtime (its `message` argument is
fed back the previous `encrypt` result inside `prepare_encrypted_deck`),
dynamic values are modelled by the inductive type `PyVal` and the relevant
Python operators (`*` and `%` on ints and tuples) are given their actual
Python semantics.
-/

namespace MentalPoker

/-- Python `pow(a, b, m)`: modular exponentiation. -/
def powmod (a b m : ℕ) : ℕ := a ^ b % m

/-- `MentalPokerCrypto.encrypt` on the int happy path:
`k = randint(2, p-2)` is passed explicitly; returns
`(g^k mod p, message * y^k mod p)`. -/
def encrypt (p g message y k : ℕ) : ℕ × ℕ :=
  (powmod g k p, message * powmod y k p % p)

/-- `MentalPokerCrypto.decrypt`: for ciphertext `(a, b)` and private key `x`,
returns `b * a^(p-1-x) mod p`. -/
def decrypt (p : ℕ) (c : ℕ × ℕ) (x : ℕ) : ℕ :=
  c.2 * powmod c.1 (p - 1 - x) p % p

/-- `MentalPokerCrypto.re_encrypt`: for ciphertext `(a, b)`, public key `y`
and fresh `k`, returns `(a * g^k mod p, b * y^k mod p)`. -/
def re_encrypt (p g : ℕ) (c : ℕ × ℕ) (y k : ℕ) : ℕ × ℕ :=
  (c.1 * powmod g k p % p, c.2 * powmod y k p % p)

/-- A dynamically typed Python value: an int or a tuple. -/
inductive PyVal where
  | intv : ℕ → PyVal
  | tup : List PyVal → PyVal

/-- Python `v * n` for `v` an int or a tuple and `n` an int:
int multiplication, or tuple repetition. -/
def pyMul (v : PyVal) (n : ℕ) : PyVal :=
  match v with
  | .intv m => .intv (m * n)
  | .tup l => .tup (List.flatten (List.replicate n l))

/-- Python `v % n`: defined on ints; on a tuple it raises `TypeError`. -/
def pyMod (v : PyVal) (n : ℕ) : Except String PyVal :=
  match v with
  | .intv m => .ok (.intv (m % n))
  | .tup _ => .error "TypeError"

/-- `MentalPokerCrypto.encrypt` with a dynamically typed `message`, exactly
as Python executes it: `a = pow(g, k, p)`; `b = (message * pow(y, k, p)) % p`;
return `(a, b)`. -/
def encryptPy (p g : ℕ) (message : PyVal) (y k : ℕ) : Except String PyVal :=
  match pyMod (pyMul message (powmod y k p)) p with
  | .error e => .error e
  | .ok b => .ok (.tup [.intv (powmod g k p), b])

/-- The inner loop of `MentalPokerProtocol.prepare_encrypted_deck`:
`for pub_key in public_keys: encrypted_card = encrypt(encrypted_card, pub_key)`,
with each public key paired with the ephemeral `k` drawn for that call. -/
def layerEncrypt (p g : ℕ) : PyVal → List (ℕ × ℕ) → Except String PyVal
  | m, [] => .ok m
  | m, (y, k) :: rest =>
    match encryptPy p g m y k with
    | .error e => .error e
    | .ok c => layerEncrypt p g c rest

/-- `MentalPokerProtocol.prepare_encrypted_deck`: every card code is layered
under every public key in order.  `kss` supplies, per card, the ephemeral
exponents drawn for the successive `encrypt` calls. -/
def prepare_encrypted_deck (p g : ℕ) (cards : List ℕ) (public_keys : List ℕ)
    (kss : List (List ℕ)) : Except String (List PyVal) :=
  (cards.zip kss).mapM (fun ck => layerEncrypt p g (.intv ck.1) (public_keys.zip ck.2))

/-- `MentalPokerCrypto.decrypt` with a dynamically typed ciphertext:
`a, b = ciphertext` unpacking and `pow(a, ...)` both raise `TypeError`
unless the ciphertext is a pair whose first component is an int. -/
def decryptPy (p : ℕ) (c : PyVal) (x : ℕ) : Except String PyVal :=
  match c with
  | .tup [.intv a, b] => pyMod (pyMul b (powmod a (p - 1 - x) p)) p
  | _ => .error "TypeError"

/-- The decomposition loop of `MentalPokerCrypto.is_prime`:
`r, d = 0, n-1; while d % 2 == 0: r += 1; d //= 2`.  The loop is
structurally bounded by a fuel argument (the loop runs at most
`log2 m + 1` times for its only caller, which passes `m = n - 1 ≥ 4`). -/
def splitTwoAux : ℕ → ℕ → ℕ × ℕ
  | 0, m => (0, m)
  | fuel + 1, m =>
    if m % 2 = 0 ∧ m ≠ 0 then
      let q := splitTwoAux fuel (m / 2)
      (q.1 + 1, q.2)
    else (0, m)

/-- `n - 1 = 2^r * d` with `d` odd, as computed by `is_prime`. -/
def splitTwo (m : ℕ) : ℕ × ℕ := splitTwoAux m m

/-- The witness squaring loop of `is_prime`:
`for _ in range(r-1): x = pow(x, 2, n); if x == n-1: break` — returns
`true` when the break is taken, `false` when the loop falls through
(Python's `for ... else: return False`). -/
def squareLoop (n : ℕ) : ℕ → ℕ → Bool
  | _, 0 => false
  | x, i + 1 =>
    let x2 := x ^ 2 % n
    if x2 = n - 1 then true else squareLoop n x2 i

/-- One Miller-Rabin round of `is_prime` for base `a`:
`x = pow(a, d, n); if x == 1 or x == n-1: continue;` then the squaring
loop, reporting `false` (composite) when no value reaches `n - 1`. -/
def mrRound (n a r d : ℕ) : Bool :=
  let x := powmod a d n
  if x = 1 ∨ x = n - 1 then true else squareLoop n x (r - 1)

/-- `MentalPokerCrypto.is_prime(n, k)` with the `k` random bases
`a = randint(2, n-2)` passed explicitly as `bases`. -/
def is_prime (n : ℕ) (bases : List ℕ) : Bool :=
  if n = 2 ∨ n = 3 then true
  else if n ≤ 1 ∨ n % 2 = 0 then false
  else
    let rd := splitTwo (n - 1)
    bases.all (fun a => mrRound n a rd.1 rd.2)

/-- The generator acceptance test of `MentalPokerCrypto.find_generator`:
`all(pow(g, (p-1)//f, p) != 1 for f in factors)` with
`factors = [2, (p-1)//2]`. -/
def genOk (p g : ℕ) : Bool :=
  [2, (p - 1) / 2].all (fun f => decide (powmod g ((p - 1) / f) p ≠ 1))

/-- `MentalPokerCrypto.find_generator`: the first `g in range(2, p)` passing
the acceptance test, with fallback `2` after the loop. -/
def find_generator (p : ℕ) : ℕ :=
  ((List.range' 2 (p - 2)).find? (fun g => genOk p g)).getD 2

/-- Modelled from the spec: `sympy.nextprime(n)` (an external library call),
"pick a candidate prime `q` near `2^(bitlen-1)`" — the least prime strictly
greater than `n`. -/
def nextprime (n : ℕ) : ℕ :=
  Nat.find (p := fun m => n < m ∧ Nat.Prime m)
    (by
      obtain ⟨q, hq, hq2⟩ := Nat.exists_infinite_primes (n + 1)
      exact ⟨q, hq, hq2⟩)

/-- Python `int.bit_length`: `0` for `0`, otherwise `⌊log2 n⌋ + 1`. -/
def bit_length (n : ℕ) : ℕ := Nat.size n

/-- `MentalPokerCrypto.generate_safe_prime`, its `while True` loop unrolled
on a fuel argument: each iteration recomputes `q = nextprime(2^(bitlen-1))`,
`p = 2q+1` and returns `p` when `p.bit_length() == bit_length and is_prime(p)`
holds; `none` means the given number of iterations all rejected.  The
primality call's random bases are abstracted as the oracle `isp`. -/
def generate_safe_prime (bitLen : ℕ) (isp : ℕ → Bool) : ℕ → Option ℕ
  | 0 => none
  | fuel + 1 =>
    let q := nextprime (2 ^ (bitLen - 1))
    let p := 2 * q + 1
    if bit_length p = bitLen ∧ isp p then some p
    else generate_safe_prime bitLen isp fuel

/-- `CardEncoder` suits, in code order. -/
def suits : List String := ["S", "H", "D", "C"]

/-- `CardEncoder` ranks, in code order. -/
def ranks : List String :=
  ["2", "3", "4", "5", "6", "7", "8", "9", "10", "J", "Q", "K", "A"]

/-- The 52 card labels `rank + suit`, in the suit-major insertion order of
`generate_card_mapping`. -/
def labels : List String := suits.flatMap (fun s => ranks.map (fun r => r ++ s))

/-- The prime-collecting scan of `generate_card_mapping`:
`current = 2; while len(primes) < 52: if is_prime(current): append; current += 1`.
`oracle` supplies the random Miller-Rabin bases drawn when testing each
candidate; the loop is structurally bounded by a fuel argument. -/
def scanPrimes (oracle : ℕ → List ℕ) : ℕ → ℕ → List ℕ → List ℕ
  | 0, _, acc => acc
  | fuel + 1, current, acc =>
    if acc.length < 52 then
      scanPrimes oracle fuel (current + 1)
        (if is_prime current (oracle current) then acc ++ [current] else acc)
    else acc

/-- A kernel-computable trial-division primality test, used only to state
hypotheses about the base-drawing oracle. -/
def isPrimeSimple (n : ℕ) : Bool :=
  decide (2 ≤ n ∧ ∀ d, d < n → 2 ≤ d → ¬ d ∣ n)

/-- The prime-collecting scan with every candidate classified correctly
(the reference computation the oracle-driven scan is compared against). -/
def primeScan : ℕ → ℕ → List ℕ → List ℕ
  | 0, _, acc => acc
  | fuel + 1, current, acc =>
    if acc.length < 52 then
      primeScan fuel (current + 1)
        (if isPrimeSimple current then acc ++ [current] else acc)
    else acc

/-- `CardEncoder.generate_card_mapping`: the insertion-ordered dict
`{label: primes[i]}` as an association list.  300 iterations of fuel are
enough for the scan to collect 52 entries whenever the oracle classifies
every candidate below 300 correctly. -/
def generate_card_mapping (oracle : ℕ → List ℕ) : List (String × ℕ) :=
  labels.zip (scanPrimes oracle 300 2 [])

/-- `CardEncoder.card_to_number`: `self.card_mapping.get(card)` — `none`
when the label is not registered. -/
def card_to_number (m : List (String × ℕ)) (card : String) : Option ℕ :=
  match m with
  | [] => none
  | (c, v) :: rest => if c = card then some v else card_to_number rest card

/-- `CardEncoder.number_to_card`: linear reverse scan of the mapping in
insertion order, `none` (`return None`) when no code matches. -/
def number_to_card (m : List (String × ℕ)) (number : ℕ) : Option String :=
  match m with
  | [] => none
  | (c, v) :: rest => if v = number then some c else number_to_card rest number

/-- `poker_rules.Card`: a rank (2-14) and a suit (0-3). -/
structure PCard where
  rank : ℕ
  suit : ℕ
deriving DecidableEq

/-- The body of `Deck.deal`, `[self.cards.pop() for _ in range(count)]`:
pops `count` cards off the end of the list, earliest pop first in the
result; `none` models the `IndexError` of `pop` on an empty list
(unreachable under `deal`'s guard). -/
def popCards : List PCard → ℕ → Option (List PCard × List PCard)
  | cards, 0 => some ([], cards)
  | cards, n + 1 =>
    match cards.getLast? with
    | none => none
    | some c => (popCards cards.dropLast n).map (fun pr => (c :: pr.1, pr.2))

/-- `Deck.deal(count)`: raises `ValueError` when fewer than `count` cards
remain (leaving the card list untouched), otherwise returns the dealt cards
together with the remaining card list. -/
def deal (cards : List PCard) (count : ℕ) : Except String (List PCard) × List PCard :=
  if cards.length < count then (.error "ValueError", cards)
  else
    match popCards cards count with
    | some pr => (.ok pr.1, pr.2)
    | none => (.error "IndexError", cards)

/-- An honest base-drawing oracle: base 2 alone, which classifies every
candidate below 2047 correctly. -/
def oracleHonest : ℕ → List ℕ := fun _ => [2]

/-- The deck of numeric card codes, `list(self.encoder.card_mapping.values())`,
as built with honest Miller-Rabin draws. -/
def deckCodes : List ℕ := (generate_card_mapping oracleHonest).map Prod.snd

/-- A base-drawing oracle whose draw for candidate 25 happens to be the
strong liar 7 (all other candidates get the honest base 2). -/
def oracle25 : ℕ → List ℕ := fun n => if n = 25 then [7] else [2]

end MentalPoker

set_option maxRecDepth 100000

namespace MentalPoker

/-! ### Helper lemmas -/

theorem cast_powmod (p a b : ℕ) : ((powmod a b p : ℕ) : ZMod p) = (a : ZMod p) ^ b := by
  simp [powmod, ZMod.natCast_mod]

theorem eq_of_natCast_eq {p a b : ℕ} (ha : a < p) (hb : b < p)
    (h : (a : ZMod p) = (b : ZMod p)) : a = b := by
  have h2 := (ZMod.natCast_eq_natCast_iff a b p).mp h
  rwa [Nat.ModEq, Nat.mod_eq_of_lt ha, Nat.mod_eq_of_lt hb] at h2

theorem exp_split {p x k : ℕ} (hxle : x ≤ p - 1) :
    x * k + k * (p - 1 - x) = (p - 1) * k := by
  have : x + (p - 1 - x) = p - 1 := Nat.add_sub_cancel' hxle
  calc x * k + k * (p - 1 - x) = (x + (p - 1 - x)) * k := by ring
    _ = (p - 1) * k := by rw [this]

/-! ### C3: single-layer round trip -/

/-- C3: for every message `m < p`, private key `x` with `1 < x < p-1` and
matching public key `y = g^x mod p`, and ephemeral exponent `k ∈ [2, p-2]`,
`decrypt (encrypt m y) x = m`. -/
theorem decrypt_encrypt_roundtrip (p g m x k : ℕ) (hp : p.Prime) (hg : ¬ p ∣ g)
    (hm : m < p) (hx1 : 1 < x) (hx2 : x < p - 1) (hk1 : 2 ≤ k) (hk2 : k ≤ p - 2) :
    decrypt p (encrypt p g m (powmod g x p) k) x = m := by
  haveI : Fact p.Prime := ⟨hp⟩
  have hp0 : 0 < p := hp.pos
  have hxle : x ≤ p - 1 := le_of_lt hx2
  apply eq_of_natCast_eq (Nat.mod_lt _ hp0) hm
  have hG : (g : ZMod p) ≠ 0 := by
    rw [Ne, ZMod.natCast_zmod_eq_zero_iff_dvd]; exact hg
  have hfer : (g : ZMod p) ^ (p - 1) = 1 := ZMod.pow_card_sub_one_eq_one hG
  simp only [decrypt, encrypt, ZMod.natCast_mod, Nat.cast_mul, cast_powmod]
  calc (m : ZMod p) * ((g : ZMod p) ^ x) ^ k * ((g : ZMod p) ^ k) ^ (p - 1 - x)
      = (m : ZMod p) * (g : ZMod p) ^ (x * k + k * (p - 1 - x)) := by
        rw [← pow_mul, ← pow_mul, mul_assoc, ← pow_add]
    _ = (m : ZMod p) := by
        rw [exp_split hxle, pow_mul, hfer, one_pow, mul_one]

/-- Witness for C3 at `p = 7`, `g = 3`, `m = 5`, `x = 2`, `k = 3`. -/
theorem decrypt_encrypt_roundtrip_witness :
    decrypt 7 (encrypt 7 3 5 (powmod 3 2 7) 3) 2 = 5 :=
  decrypt_encrypt_roundtrip 7 3 5 2 3 (by norm_num) (by decide) (by decide)
    (by decide) (by decide) (by decide) (by decide)

/-! ### C4: re-encryption -/

/-- C4 counterexample: with the valid key pair `x = 2`, `y = 3^2 mod 7 = 2`
and the ephemeral exponent `k = 3 ∈ [2, 5]`, `re_encrypt` leaves the second
component of the ciphertext `(3, 5)` unchanged. -/
theorem re_encrypt_second_component_unchanged :
    powmod 3 2 7 = 2 ∧ (re_encrypt 7 3 (3, 5) 2 3).2 = (3, 5).2 := by decide

/-- C4 (amended): `re_encrypt` preserves the decryption result for every
ephemeral exponent `k ∈ [2, p-2]`, and (for `g` of full order and a
ciphertext whose first component is a nonzero group element) it always
changes the first component; the second component can coincide with the
original for some `k`. -/
theorem re_encrypt_preserves_decrypt (p g a b x y k : ℕ) (hp : p.Prime)
    (hg : ¬ p ∣ g) (hy : y = powmod g x p) (hx1 : 1 < x) (hx2 : x < p - 1)
    (ha0 : 0 < a) (hap : a < p) (hk1 : 2 ≤ k) (hk2 : k ≤ p - 2)
    (hord : ∀ j, j < p - 1 → 0 < j → powmod g j p ≠ 1) :
    decrypt p (re_encrypt p g (a, b) y k) x = decrypt p (a, b) x ∧
    (re_encrypt p g (a, b) y k).1 ≠ a := by
  haveI : Fact p.Prime := ⟨hp⟩
  have hp0 : 0 < p := hp.pos
  have hp2 : 2 ≤ p := hp.two_le
  have hxle : x ≤ p - 1 := le_of_lt hx2
  have hG : (g : ZMod p) ≠ 0 := by
    rw [Ne, ZMod.natCast_zmod_eq_zero_iff_dvd]; exact hg
  have hfer : (g : ZMod p) ^ (p - 1) = 1 := ZMod.pow_card_sub_one_eq_one hG
  have hkey : ((g : ZMod p) ^ x) ^ k * ((g : ZMod p) ^ k) ^ (p - 1 - x) = 1 := by
    rw [← pow_mul, ← pow_mul, ← pow_add, exp_split hxle, pow_mul, hfer, one_pow]
  constructor
  · apply eq_of_natCast_eq (Nat.mod_lt _ hp0) (Nat.mod_lt _ hp0)
    subst hy
    simp only [decrypt, re_encrypt, ZMod.natCast_mod, Nat.cast_mul, cast_powmod]
    calc (b : ZMod p) * ((g : ZMod p) ^ x) ^ k *
          ((a : ZMod p) * (g : ZMod p) ^ k) ^ (p - 1 - x)
        = (b : ZMod p) * (a : ZMod p) ^ (p - 1 - x) *
          (((g : ZMod p) ^ x) ^ k * ((g : ZMod p) ^ k) ^ (p - 1 - x)) := by
          rw [mul_pow]; ring
      _ = (b : ZMod p) * (a : ZMod p) ^ (p - 1 - x) := by rw [hkey, mul_one]
  · intro hcontra
    have hA : (a : ZMod p) ≠ 0 := by
      rw [Ne, ZMod.natCast_zmod_eq_zero_iff_dvd]
      exact fun hd => absurd (Nat.le_of_dvd ha0 hd) (not_le.mpr hap)
    have hcast : (a : ZMod p) * (g : ZMod p) ^ k = (a : ZMod p) := by
      have := congrArg (fun t : ℕ => (t : ZMod p)) hcontra
      simpa only [re_encrypt, ZMod.natCast_mod, Nat.cast_mul, cast_powmod] using this
    have hGk : (g : ZMod p) ^ k = 1 := by
      have h1 : (a : ZMod p) * (g : ZMod p) ^ k = (a : ZMod p) * 1 := by
        rw [mul_one]; exact hcast
      exact mul_left_cancel₀ hA h1
    have hpow : powmod g k p = 1 := by
      apply eq_of_natCast_eq (Nat.mod_lt _ hp0) (lt_of_lt_of_le one_lt_two hp2)
      rw [ZMod.natCast_mod, Nat.cast_pow, Nat.cast_one]
      exact hGk
    exact hord k (by omega) (by omega) hpow

/-- Witness for C4 at `p = 7`, `g = 3`, `x = 2`, `y = 2`, `k = 3`,
ciphertext `(3, 5)`. -/
theorem re_encrypt_preserves_decrypt_witness :
    decrypt 7 (re_encrypt 7 3 (3, 5) 2 3) 2 = decrypt 7 (3, 5) 2 ∧
    (re_encrypt 7 3 (3, 5) 2 3).1 ≠ 3 :=
  re_encrypt_preserves_decrypt 7 3 3 5 2 2 3 (by norm_num) (by decide) (by rfl)
    (by decide) (by decide) (by decide) (by decide) (by decide) (by decide)
    (by decide)

/-! ### C2 and C1: layered encryption crashes -/

/-- C2: sequentially encrypting an integer message under two or more public
keys raises `TypeError` at the second `encrypt` call — the tuple `(a, b)`
produced by the first call is repeated by Python `*` and then `% p` is
applied to a tuple. -/
theorem sequential_encrypt_typeerror (p g m y1 k1 y2 k2 : ℕ) (rest : List (ℕ × ℕ)) :
    layerEncrypt p g (.intv m) ((y1, k1) :: (y2, k2) :: rest) = .error "TypeError" :=
  rfl

/-- C1: `prepare_encrypted_deck` with the three-participant key list raises
`TypeError` on the very first card (at the second encryption layer), instead
of returning a 52-entry encrypted deck. -/
theorem prepare_encrypted_deck_typeerror :
    prepare_encrypted_deck 7 3 deckCodes [2, 6, 4] (List.replicate 52 [2, 3, 4]) =
      .error "TypeError" :=
  rfl

/-! ### C10: Deck.deal -/

theorem popCards_spec : ∀ (count : ℕ) (cards : List PCard), count ≤ cards.length →
    ∃ pr, popCards cards count = some pr ∧ pr.1.length = count ∧
      pr.2.length = cards.length - count := by
  intro count
  induction count with
  | zero => exact fun cards _ => ⟨([], cards), rfl, rfl, by simp⟩
  | succ n ih =>
    intro cards h
    have hne : cards ≠ [] := by
      intro e; subst e; simp at h
    obtain ⟨c, hc⟩ : ∃ c, cards.getLast? = some c := by
      cases hl : cards.getLast? with
      | none => exact absurd (List.getLast?_eq_none_iff.mp hl) hne
      | some c => exact ⟨c, rfl⟩
    have hdl : cards.dropLast.length = cards.length - 1 := List.length_dropLast cards
    have hn : n ≤ cards.dropLast.length := by omega
    obtain ⟨pr, hpr, h1, h2⟩ := ih _ hn
    refine ⟨(c :: pr.1, pr.2), ?_, by simpa using h1, ?_⟩
    · simp [popCards, hc, hpr]
    · rw [h2, hdl]; omega

/-- C10: `deal` fails exactly when more cards are requested than remain; on
failure the card list is unchanged; on success it returns `count` cards and
the deck shrinks by `count`. -/
theorem deal_spec (cards : List PCard) (count : ℕ) :
    ((deal cards count).1.isOk = true ↔ count ≤ cards.length) ∧
    (cards.length < count → deal cards count = (.error "ValueError", cards)) ∧
    (count ≤ cards.length → ∃ dealt, (deal cards count).1 = .ok dealt ∧
      dealt.length = count ∧ (deal cards count).2.length = cards.length - count) := by
  by_cases h : cards.length < count
  · have hd : deal cards count = (.error "ValueError", cards) := by simp [deal, h]
    refine ⟨?_, fun _ => hd, fun hle => absurd hle (by omega)⟩
    constructor
    · intro habs
      rw [hd] at habs
      simp [Except.isOk, Except.toBool] at habs
    · intro hle
      omega
  · have hle : count ≤ cards.length := by omega
    obtain ⟨pr, hpr, h1, h2⟩ := popCards_spec count cards hle
    have hdeal : deal cards count = (.ok pr.1, pr.2) := by
      simp [deal, h, hpr]
    refine ⟨?_, fun hlt => absurd hlt h, fun _ => ⟨pr.1, ?_, h1, ?_⟩⟩
    · simp [hdeal, Except.isOk, Except.toBool, hle]
    · rw [hdeal]
    · rw [hdeal]; exact h2

/-- Witness for C10 on a three-card deck with `count = 2`. -/
theorem deal_spec_witness :
    ∃ dealt, (deal [⟨2, 0⟩, ⟨3, 1⟩, ⟨4, 2⟩] 2).1 = .ok dealt ∧
      dealt.length = 2 ∧
      (deal [⟨2, 0⟩, ⟨3, 1⟩, ⟨4, 2⟩] 2).2.length =
        ([⟨2, 0⟩, ⟨3, 1⟩, ⟨4, 2⟩] : List PCard).length - 2 :=
  (deal_spec [⟨2, 0⟩, ⟨3, 1⟩, ⟨4, 2⟩] 2).2.2 (by decide)

/-! ### C8: generate_safe_prime never accepts -/

theorem nextprime_gt (n : ℕ) : n < nextprime n :=
  (Nat.find_spec (p := fun m => n < m ∧ Nat.Prime m) _).1

/-- C8: the acceptance check of `generate_safe_prime` can never succeed —
`p = 2*nextprime(2^(bitlen-1)) + 1` always exceeds `2^bitlen`, so
`p.bit_length()` is at least `bitlen + 1` — hence the `while True` loop
never returns, for every configured bit length and every behaviour of the
primality test. -/
theorem generate_safe_prime_never_returns (bitLen : ℕ) (isp : ℕ → Bool) :
    ∀ fuel, generate_safe_prime bitLen isp fuel = none := by
  have key : bit_length (2 * nextprime (2 ^ (bitLen - 1)) + 1) ≠ bitLen := by
    have h1 : 2 ^ (bitLen - 1) < nextprime (2 ^ (bitLen - 1)) := nextprime_gt _
    have h2 : 2 ^ bitLen ≤ 2 * nextprime (2 ^ (bitLen - 1)) + 1 := by
      rcases Nat.eq_zero_or_pos bitLen with h | h
      · subst h; simpa using Nat.one_le_iff_ne_zero.mpr (by omega)
      · have hb : bitLen - 1 + 1 = bitLen := Nat.succ_pred_eq_of_pos h
        have hpow2 : 2 ^ bitLen = 2 ^ (bitLen - 1) * 2 := by
          conv_lhs => rw [← hb]
          exact pow_succ 2 (bitLen - 1)
        omega
    have h3 : bitLen < Nat.size (2 * nextprime (2 ^ (bitLen - 1)) + 1) :=
      Nat.lt_size.mpr h2
    unfold bit_length
    omega
  intro fuel
  induction fuel with
  | zero => rfl
  | succ n ih =>
    simp only [generate_safe_prime]
    rw [if_neg (fun hc => key hc.1)]
    exact ih

/-! ### C9: the Miller-Rabin tester -/

theorem splitTwoAux_spec : ∀ (fuel m : ℕ), 0 < m → m < 2 ^ fuel →
    m = 2 ^ (splitTwoAux fuel m).1 * (splitTwoAux fuel m).2 ∧
      (splitTwoAux fuel m).2 % 2 = 1 := by
  intro fuel
  induction fuel with
  | zero => intro m h0 hlt; exact absurd hlt (by omega)
  | succ f ih =>
    intro m h0 hlt
    by_cases he : m % 2 = 0 ∧ m ≠ 0
    · have h2 : 0 < m / 2 := by omega
      have h3 : m / 2 < 2 ^ f := by
        rw [Nat.div_lt_iff_lt_mul (by norm_num : 0 < 2)]
        calc m < 2 ^ (f + 1) := hlt
          _ = 2 ^ f * 2 := pow_succ 2 f
      obtain ⟨ha, hb⟩ := ih (m / 2) h2 h3
      simp only [splitTwoAux, if_pos he]
      refine ⟨?_, hb⟩
      calc m = 2 * (m / 2) := by omega
        _ = 2 * (2 ^ (splitTwoAux f (m / 2)).1 * (splitTwoAux f (m / 2)).2) := by
            rw [← ha]
        _ = 2 ^ ((splitTwoAux f (m / 2)).1 + 1) * (splitTwoAux f (m / 2)).2 := by
            rw [pow_succ]; ring
    · simp only [splitTwoAux, if_neg he]
      exact ⟨by simp, by omega⟩

theorem splitTwo_spec (m : ℕ) (h0 : 0 < m) :
    m = 2 ^ (splitTwo m).1 * (splitTwo m).2 ∧ (splitTwo m).2 % 2 = 1 :=
  splitTwoAux_spec m m h0 (Nat.lt_two_pow m)

theorem pow_one_or_neg_one {p : ℕ} [Fact p.Prime] (A : ZMod p) :
    ∀ (j e : ℕ), A ^ (2 ^ j * e) = 1 →
      A ^ e = 1 ∨ ∃ i, i < j ∧ A ^ (2 ^ i * e) = -1 := by
  intro j
  induction j with
  | zero => intro e h; left; simpa using h
  | succ i ih =>
    intro e h
    have hexp : 2 ^ (i + 1) * e = 2 ^ i * e + 2 ^ i * e := by
      rw [pow_succ]; ring
    have hsq : A ^ (2 ^ i * e) * A ^ (2 ^ i * e) = 1 := by
      rw [← pow_add, ← hexp]; exact h
    rcases mul_self_eq_one_iff.mp hsq with h1 | h1
    · rcases ih e h1 with h2 | ⟨i2, hi2, h2⟩
      · exact Or.inl h2
      · exact Or.inr ⟨i2, by omega, h2⟩
    · exact Or.inr ⟨i, by omega, h1⟩

theorem powmod_eq_one_of {n a e : ℕ} (hn : 1 < n) (h : (a : ZMod n) ^ e = 1) :
    powmod a e n = 1 := by
  apply eq_of_natCast_eq (Nat.mod_lt _ (by omega)) hn
  rw [ZMod.natCast_mod, Nat.cast_pow, Nat.cast_one]
  exact h

theorem powmod_eq_sub_one_of {n a e : ℕ} (hn : 1 < n) (h : (a : ZMod n) ^ e = -1) :
    powmod a e n = n - 1 := by
  apply eq_of_natCast_eq (Nat.mod_lt _ (by omega)) (by omega)
  rw [ZMod.natCast_mod, Nat.cast_pow, Nat.cast_sub (by omega : 1 ≤ n),
    Nat.cast_one, ZMod.natCast_self, zero_sub]
  exact h

theorem squareLoop_true {n a d : ℕ} :
    ∀ (m s : ℕ), (∃ j, s < j ∧ j ≤ s + m ∧ powmod a (2 ^ j * d) n = n - 1) →
      squareLoop n (powmod a (2 ^ s * d) n) m = true := by
  intro m
  induction m with
  | zero =>
    rintro s ⟨j, h1, h2, -⟩
    omega
  | succ m ih =>
    rintro s ⟨j, h1, h2, h3⟩
    have hx2 : powmod a (2 ^ s * d) n ^ 2 % n = powmod a (2 ^ (s + 1) * d) n := by
      simp only [powmod]
      conv_lhs => rw [← Nat.pow_mod]
      rw [← pow_mul]
      congr 1
      rw [pow_succ]
      ring
    simp only [squareLoop]
    rw [hx2]
    by_cases hj : powmod a (2 ^ (s + 1) * d) n = n - 1
    · rw [if_pos hj]
    · rw [if_neg hj]
      apply ih (s + 1)
      refine ⟨j, ?_, by omega, h3⟩
      rcases Nat.lt_or_ge (s + 1) j with h | h
      · exact h
      · have hji : j = s + 1 := by omega
        rw [hji] at h3
        exact absurd h3 hj

theorem mrRound_true_of_prime {n : ℕ} (hp : n.Prime) (hn5 : 5 ≤ n) {a r d : ℕ}
    (hrd : n - 1 = 2 ^ r * d) (ha1 : 2 ≤ a) (ha2 : a ≤ n - 2) :
    mrRound n a r d = true := by
  haveI : Fact n.Prime := ⟨hp⟩
  have hn1 : 1 < n := by omega
  have hA : (a : ZMod n) ≠ 0 := by
    rw [Ne, ZMod.natCast_zmod_eq_zero_iff_dvd]
    exact fun hd => absurd (Nat.le_of_dvd (by omega) hd) (by omega)
  have hfer : (a : ZMod n) ^ (n - 1) = 1 := ZMod.pow_card_sub_one_eq_one hA
  rw [hrd] at hfer
  rcases pow_one_or_neg_one (a : ZMod n) r d hfer with h | ⟨i, hi, h⟩
  · have hx : powmod a d n = 1 := powmod_eq_one_of hn1 h
    simp [mrRound, hx]
  · rcases Nat.eq_zero_or_pos i with hi0 | hi0
    · subst hi0
      have hx : powmod a d n = n - 1 := by
        have h2 := powmod_eq_sub_one_of hn1 h
        simpa using h2
      simp [mrRound, hx]
    · have hv : powmod a (2 ^ i * d) n = n - 1 := powmod_eq_sub_one_of hn1 h
      simp only [mrRound]
      by_cases hx : powmod a d n = 1 ∨ powmod a d n = n - 1
      · rw [if_pos hx]
      · rw [if_neg hx]
        have hd0 : powmod a d n = powmod a (2 ^ 0 * d) n := by norm_num
        rw [hd0]
        exact squareLoop_true (r - 1) 0 ⟨i, hi0, by omega, hv⟩

/-- C9: `is_prime` accepts 2 and 3, rejects every `n ≤ 1` and every even
`n > 3`, and — following the Miller-Rabin scheme on `n - 1 = 2^r * d` —
accepts every prime `n` no matter which bases in `[2, n-2]` are drawn. -/
theorem is_prime_spec (n : ℕ) (bases : List ℕ) :
    is_prime 2 bases = true ∧ is_prime 3 bases = true ∧
    (n ≤ 1 → is_prime n bases = false) ∧
    (n % 2 = 0 → 3 < n → is_prime n bases = false) ∧
    (n.Prime → (∀ a ∈ bases, 2 ≤ a ∧ a ≤ n - 2) → is_prime n bases = true) := by
  refine ⟨rfl, rfl, ?_, ?_, ?_⟩
  · intro h
    unfold is_prime
    rw [if_neg (by omega), if_pos (Or.inl h)]
  · intro he h3
    unfold is_prime
    rw [if_neg (by omega), if_pos (Or.inr he)]
  · intro hp hb
    by_cases h23 : n = 2 ∨ n = 3
    · unfold is_prime
      rw [if_pos h23]
    · have h4 : n ≠ 4 := by
        intro h4
        rw [h4] at hp
        norm_num at hp
      have h5 : 5 ≤ n := by
        have := hp.two_le
        omega
      have hodd : n % 2 = 1 := by
        rcases Nat.even_or_odd n with he | ho
        · exfalso
          have : n = 2 := (hp.even_iff.mp he)
          omega
        · exact Nat.odd_iff.mp ho
      unfold is_prime
      rw [if_neg h23, if_neg (by omega)]
      simp only [List.all_eq_true, decide_eq_true_eq]
      intro a ha
      obtain ⟨hsp, -⟩ := splitTwo_spec (n - 1) (by omega)
      exact mrRound_true_of_prime hp h5 hsp (hb a ha).1 (hb a ha).2

/-- Witness for C9: the prime 7 is accepted with the drawn bases 2 and 5. -/
theorem is_prime_spec_witness : is_prime 7 [2, 5] = true :=
  (is_prime_spec 7 [2, 5]).2.2.2.2 (by norm_num) (by decide)

/-! ### C5 and C6: the card codec -/

theorem isPrimeSimple_iff (n : ℕ) : isPrimeSimple n = true ↔ n.Prime := by
  unfold isPrimeSimple
  rw [decide_eq_true_iff]
  constructor
  · rintro ⟨h2, hnd⟩
    rw [Nat.prime_def_lt]
    refine ⟨h2, fun m hm hdvd => ?_⟩
    by_contra hm1
    have hm0 : m ≠ 0 := by
      rintro rfl
      have := Nat.eq_zero_of_zero_dvd hdvd
      omega
    exact hnd m hm (by omega) hdvd
  · intro hp
    refine ⟨hp.two_le, fun d hd hd2 hdvd => ?_⟩
    have := (Nat.prime_def_lt.mp hp).2 d hd hdvd
    omega

theorem scanPrimes_congr (oracle : ℕ → List ℕ) :
    ∀ (fuel current : ℕ) (acc : List ℕ),
      (∀ k, k < current + fuel → is_prime k (oracle k) = isPrimeSimple k) →
      scanPrimes oracle fuel current acc = primeScan fuel current acc := by
  intro fuel
  induction fuel with
  | zero => intro current acc _; rfl
  | succ f ih =>
    intro current acc h
    simp only [scanPrimes, primeScan]
    by_cases hl : acc.length < 52
    · rw [if_pos hl, if_pos hl, h current (by omega)]
      exact ih (current + 1) _ (fun k hk => h k (by omega))
    · rw [if_neg hl, if_neg hl]

/-- C5 counterexample: when the random draw for candidate 25 happens to be
the strong liar 7, the Miller-Rabin scan accepts 25 and the built mapping
contains the composite code 25 — so the codes are not always prime. -/
theorem card_mapping_nonprime_code :
    25 ∈ (generate_card_mapping oracle25).map Prod.snd ∧ ¬ Nat.Prime 25 :=
  ⟨by decide, by norm_num⟩

/-- C5 (amended): provided the drawn Miller-Rabin bases classify every
candidate below 300 correctly (as honest random draws do with overwhelming
probability), the codec mapping round-trips all 52 labels, its codes are
pairwise distinct and all prime, and they are the first 52 primes from 2. -/
theorem card_mapping_spec (oracle : ℕ → List ℕ)
    (H : ∀ k, k < 302 → is_prime k (oracle k) = isPrimeSimple k) :
    (∀ l ∈ labels, (card_to_number (generate_card_mapping oracle) l).bind
        (number_to_card (generate_card_mapping oracle)) = some l) ∧
    ((generate_card_mapping oracle).map Prod.snd).Nodup ∧
    (∀ v ∈ (generate_card_mapping oracle).map Prod.snd, Nat.Prime v) ∧
    (generate_card_mapping oracle).map Prod.snd =
      [2, 3, 5, 7, 11, 13, 17, 19, 23, 29, 31, 37, 41, 43, 47, 53, 59, 61,
       67, 71, 73, 79, 83, 89, 97, 101, 103, 107, 109, 113, 127, 131, 137,
       139, 149, 151, 157, 163, 167, 173, 179, 181, 191, 193, 197, 199,
       211, 223, 227, 229, 233, 239] := by
  have hscan : scanPrimes oracle 300 2 [] = primeScan 300 2 [] :=
    scanPrimes_congr oracle 300 2 [] (fun k hk => H k (by omega))
  unfold generate_card_mapping
  rw [hscan]
  refine ⟨by decide, by decide, ?_, by decide⟩
  have hall : ∀ v ∈ (labels.zip (primeScan 300 2 [])).map Prod.snd,
      isPrimeSimple v = true := by decide
  exact fun v hv => (isPrimeSimple_iff v).mp (hall v hv)

/-- Witness for C5: with the honest single-base-2 oracle the codes are
exactly the first 52 primes. -/
theorem card_mapping_spec_witness :
    (generate_card_mapping oracleHonest).map Prod.snd =
      [2, 3, 5, 7, 11, 13, 17, 19, 23, 29, 31, 37, 41, 43, 47, 53, 59, 61,
       67, 71, 73, 79, 83, 89, 97, 101, 103, 107, 109, 113, 127, 131, 137,
       139, 149, 151, 157, 163, 167, 173, 179, 181, 191, 193, 197, 199,
       211, 223, 227, 229, 233, 239] :=
  (card_mapping_spec oracleHonest (by decide)).2.2.2

theorem card_to_number_eq_none_iff (m : List (String × ℕ)) (s : String) :
    card_to_number m s = none ↔ s ∉ m.map Prod.fst := by
  induction m with
  | nil => simp [card_to_number]
  | cons hd tl ih =>
    obtain ⟨c, v⟩ := hd
    by_cases h : c = s
    · subst h
      simp [card_to_number]
    · simp only [card_to_number, if_neg h, List.map_cons, List.mem_cons, ih]
      constructor
      · rintro hs (rfl | hmem)
        · exact h rfl
        · exact hs hmem
      · exact fun hs hmem => hs (Or.inr hmem)

theorem number_to_card_eq_none_iff (m : List (String × ℕ)) (w : ℕ) :
    number_to_card m w = none ↔ w ∉ m.map Prod.snd := by
  induction m with
  | nil => simp [number_to_card]
  | cons hd tl ih =>
    obtain ⟨c, v⟩ := hd
    by_cases h : v = w
    · subst h
      simp [number_to_card]
    · simp only [number_to_card, if_neg h, List.map_cons, List.mem_cons, ih]
      constructor
      · rintro hs (rfl | hmem)
        · exact h rfl
        · exact hs hmem
      · exact fun hs hmem => hs (Or.inr hmem)

/-- C6: on the mapping built with correctly classifying draws, every
unrecognized label and every unregistered code yields `none` (NotFound),
and every recognized label and registered code yields a result. -/
theorem codec_lookup_spec (oracle : ℕ → List ℕ)
    (H : ∀ k, k < 302 → is_prime k (oracle k) = isPrimeSimple k) :
    (∀ s : String, s ∉ labels →
      card_to_number (generate_card_mapping oracle) s = none) ∧
    (∀ s ∈ labels, (card_to_number (generate_card_mapping oracle) s).isSome = true) ∧
    (∀ w : ℕ, w ∉ (generate_card_mapping oracle).map Prod.snd →
      number_to_card (generate_card_mapping oracle) w = none) ∧
    (∀ w ∈ (generate_card_mapping oracle).map Prod.snd,
      (number_to_card (generate_card_mapping oracle) w).isSome = true) := by
  have hscan : scanPrimes oracle 300 2 [] = primeScan 300 2 [] :=
    scanPrimes_congr oracle 300 2 [] (fun k hk => H k (by omega))
  unfold generate_card_mapping
  rw [hscan]
  have hfst : (labels.zip (primeScan 300 2 [])).map Prod.fst = labels := by decide
  refine ⟨?_, by decide, ?_, by decide⟩
  · intro s hs
    rw [card_to_number_eq_none_iff, hfst]
    exact hs
  · intro w hw
    rw [number_to_card_eq_none_iff]
    exact hw

/-- Witness for C6: an unknown label and an unregistered code both miss. -/
theorem codec_lookup_spec_witness :
    card_to_number (generate_card_mapping oracleHonest) "XX" = none ∧
    number_to_card (generate_card_mapping oracleHonest) 4 = none := by
  have h := codec_lookup_spec oracleHonest (by decide)
  exact ⟨h.1 "XX" (by decide), h.2.2.1 4 (by decide)⟩

/-! ### C7: find_generator -/

theorem exists_good_generator {p : ℕ} (hp : p.Prime) (h5 : 5 ≤ p) :
    ∃ g ∈ List.range' 2 (p - 2), genOk p g = true := by
  haveI : Fact p.Prime := ⟨hp⟩
  haveI : NeZero p := ⟨by omega⟩
  obtain ⟨ζ, hζ⟩ := IsCyclic.exists_generator (α := (ZMod p)ˣ)
  have hord : orderOf ζ = p - 1 := by
    rw [orderOf_eq_card_of_forall_mem_zpowers hζ, Nat.card_eq_fintype_card,
      ZMod.card_units p]
  have hlt : ((ζ : ZMod p)).val < p := ZMod.val_lt _
  have hcast : (((ζ : ZMod p).val : ℕ) : ZMod p) = (ζ : ZMod p) := by
    rw [ZMod.natCast_val, ZMod.cast_id]
  have hunit : (ζ : ZMod p) ≠ 0 := Units.ne_zero ζ
  have hg0pos : (ζ : ZMod p).val ≠ 0 := by
    intro h0
    apply hunit
    rw [← hcast, h0, Nat.cast_zero]
  have hg0ne1 : (ζ : ZMod p).val ≠ 1 := by
    intro h1
    have hζ1 : (ζ : ZMod p) = 1 := by
      rw [← hcast, h1, Nat.cast_one]
    rw [Units.val_eq_one.mp hζ1, orderOf_one] at hord
    omega
  have key : ∀ e, 0 < e → e < p - 1 → powmod (ζ : ZMod p).val e p ≠ 1 := by
    intro e he1 he2 hcontra
    have h1 : (((ζ : ZMod p).val : ℕ) : ZMod p) ^ e = 1 := by
      have h0 := congrArg (fun t : ℕ => (t : ZMod p)) hcontra
      simpa [powmod, ZMod.natCast_mod] using h0
    have h2 : (ζ : ZMod p) ^ e = 1 := by
      rw [← hcast]
      exact h1
    have h3 : ζ ^ e = 1 := by
      rw [← Units.val_eq_one, Units.val_pow_eq_pow_val]
      exact h2
    have h4 : orderOf ζ ∣ e := orderOf_dvd_of_pow_eq_one h3
    rw [hord] at h4
    have := Nat.le_of_dvd he1 h4
    omega
  have hpodd : p % 2 = 1 := by
    rcases Nat.even_or_odd p with he | ho
    · have : p = 2 := hp.even_iff.mp he
      omega
    · exact Nat.odd_iff.mp ho
  have hq2 : p - 1 = 2 * ((p - 1) / 2) := by omega
  have hqge : 2 ≤ (p - 1) / 2 := by omega
  have hdiv2 : (p - 1) / ((p - 1) / 2) = 2 :=
    Nat.div_eq_of_eq_mul_left (by omega) hq2
  have e1 : powmod (ζ : ZMod p).val ((p - 1) / 2) p ≠ 1 :=
    key ((p - 1) / 2) (by omega) (by omega)
  have e2 : powmod (ζ : ZMod p).val ((p - 1) / ((p - 1) / 2)) p ≠ 1 := by
    rw [hdiv2]
    exact key 2 (by omega) (by omega)
  refine ⟨(ζ : ZMod p).val, ?_, ?_⟩
  · rw [List.mem_range'_1]
    omega
  · simp [genOk, e1, e2]

/-- C7: for a safe prime `p` (so `q = (p-1)/2` is also prime), the `g`
returned by `find_generator` satisfies `g^((p-1)/2) mod p ≠ 1` and
`g^((p-1)/q) mod p ≠ 1`. -/
theorem find_generator_spec (p : ℕ) (hp : p.Prime)
    (hq : Nat.Prime ((p - 1) / 2)) (h5 : 5 ≤ p) :
    powmod (find_generator p) ((p - 1) / 2) p ≠ 1 ∧
    powmod (find_generator p) ((p - 1) / ((p - 1) / 2)) p ≠ 1 := by
  obtain ⟨g0, hmem, hok⟩ := exists_good_generator hp h5
  obtain ⟨g, hg⟩ : ∃ g, (List.range' 2 (p - 2)).find? (fun x => genOk p x) = some g := by
    cases hf : (List.range' 2 (p - 2)).find? (fun x => genOk p x) with
    | none => exact absurd hok (List.find?_eq_none.mp hf g0 hmem)
    | some g => exact ⟨g, rfl⟩
  have hgok : genOk p g = true := List.find?_some hg
  have hfg : find_generator p = g := by
    rw [find_generator, hg]
    rfl
  rw [hfg]
  simpa [genOk] using hgok

/-- Witness for C7 at the safe prime `p = 7` (where `find_generator` returns 3). -/
theorem find_generator_spec_witness :
    powmod (find_generator 7) ((7 - 1) / 2) 7 ≠ 1 ∧
    powmod (find_generator 7) ((7 - 1) / ((7 - 1) / 2)) 7 ≠ 1 :=
  find_generator_spec 7 (by norm_num) (by norm_num) (by norm_num)

end MentalPoker
